import Mathlib

/-!
Verification of the request-queue scheduler in `src/index.ts`
(axios-queue-interceptor).

The development shallowly embeds the TypeScript source:

* `Entry` is the `Entry` interface (the `cb` continuation is represented by
  the admitted entries that the operations return, rather than by a stored
  function value).
* JavaScript `Map<number, number>` values (the `active` map) are embedded as
  association lists with `mapGet` / `mapSet` / `mapDelete`, which follow the
  insertion-order semantics of `Map.prototype.get` / `set` / `delete`.
* The third-party `PriorityQueue` (a binary min-heap under the user
  comparator, from the package datastructures-js, not part of this
  repository) is embedded by its contract as a comparator-ordered list:
  `pqInsert` places a new element after all elements that do not compare
  strictly greater, and dequeue pops the head, which is comparator-minimal.
* `setTimeout` scheduling is embedded by an explicit list of pending
  `(id, delay)` timers on the queue state: `RequestQueue.finish` appends a
  timer (a `setTimeout` call with an undefined delay runs with delay 0) and
  `RequestQueue.fireTimer` is the timer callback body.
* The `debug` flag and `console.debug` logging are omitted: they do not
  change any state.
-/

namespace AQI

/-- The `Entry` interface of `src/index.ts`: a waiter in the backlog.
The stored resolve continuation `cb` is not a field here; invoking it is
modelled by returning the admitted entry from each operation. -/
structure Entry where
  id : Nat
  delayMs : Nat
  order : Nat
  priority : Option Int
deriving DecidableEq, Repr

/-- The comparator passed to the `PriorityQueue` constructor in
`src/index.ts` (lines 74 to 82), written as a three-way result:
`a.priority === undefined ? (b.priority === undefined ? a.order - b.order : -1)
: (b.priority === undefined ? 1 : a.priority - b.priority)`. -/
def comparator (a b : Entry) : Int :=
  match a.priority with
  | none =>
    match b.priority with
    | none => (a.order : Int) - (b.order : Int)
    | some _ => -1
  | some pa =>
    match b.priority with
    | none => 1
    | some pb => pa - pb

/-- Insertion into the priority-queue model: the new element goes before the
first element that it compares strictly below, hence after every element it
ties with (heap dequeue returns a comparator-minimal element; the list kept
in comparator order makes the head such an element). -/
def pqInsert (l : List Entry) (x : Entry) : List Entry :=
  match l with
  | [] => [x]
  | y :: ys => if comparator x y < 0 then x :: y :: ys else y :: pqInsert ys x

/-- `Map.prototype.get` on a number-keyed map embedded as an association
list. -/
def mapGet (m : List (Nat × Nat)) (k : Nat) : Option Nat :=
  match m with
  | [] => none
  | p :: rest => if p.1 = k then some p.2 else mapGet rest k

/-- `Map.prototype.set`: replace the entry in place when the key is present,
append otherwise. -/
def mapSet (m : List (Nat × Nat)) (k v : Nat) : List (Nat × Nat) :=
  match m with
  | [] => [(k, v)]
  | p :: rest => if p.1 = k then (k, v) :: rest else p :: mapSet rest k v

/-- `Map.prototype.delete`: remove the entry with the given key. -/
def mapDelete (m : List (Nat × Nat)) (k : Nat) : List (Nat × Nat) :=
  match m with
  | [] => []
  | p :: rest => if p.1 = k then mapDelete rest k else p :: mapDelete rest k

/-- The keys of an embedded map. -/
def keysOf (m : List (Nat × Nat)) : List Nat :=
  m.map (fun p => p.1)

/-- The `RequestQueue` class state: `active` maps an admitted request id to
the cooldown recorded for it, `backlog` is the `queue` field (the
`PriorityQueue` contents in comparator order), `timers` are the pending
`setTimeout` callbacks scheduled by `finish`. -/
structure RequestQueue where
  name : String
  active : List (Nat × Nat)
  backlog : List Entry
  timers : List (Nat × Nat)
  maxConcurrent : Nat
deriving DecidableEq, Repr

/-- The `RequestQueue` constructor: `maxConcurrent = 2` is the default
parameter value. -/
def RequestQueue.make (name : String) (maxConcurrent : Option Nat) : RequestQueue :=
  { name := name, active := [], backlog := [], timers := [], maxConcurrent := maxConcurrent.getD 2 }

/-- `RequestQueue.enqueue(id, delayMs = 300, priority?)`.  The returned
`Bool` is true when the promise resolves synchronously (a slot was free)
and false when a waiter was pushed onto the backlog, with
`order = this.queue.size()` at insertion time. -/
def RequestQueue.enqueue (q : RequestQueue) (id : Nat) (delayMs : Option Nat)
    (priority : Option Int) : RequestQueue × Bool :=
  let d := delayMs.getD 300
  if q.active.length ≥ q.maxConcurrent then
    ({ q with backlog := pqInsert q.backlog { id := id, delayMs := d, order := q.backlog.length, priority := priority } }, false)
  else
    ({ q with active := mapSet q.active id d }, true)

/-- `RequestQueue.finish(id)`: read the cooldown recorded for `id` and
schedule the timer callback after it.  `setTimeout` with an `undefined`
delay (unknown id) runs with delay 0. -/
def RequestQueue.finish (q : RequestQueue) (id : Nat) : RequestQueue :=
  { q with timers := q.timers ++ [(id, (mapGet q.active id).getD 0)] }

/-- The body of the `setTimeout` callback scheduled by `finish`: delete the
id from `active`; when a slot is then free, dequeue at most one waiter,
record it in `active` with its own recorded `delayMs`, and resume it (the
resumed waiter is the second component of the result). -/
def RequestQueue.fireTimer (q : RequestQueue) (id : Nat) (d : Nat) : RequestQueue × Option Entry :=
  if (mapDelete q.active id).length < q.maxConcurrent then
    match q.backlog with
    | [] =>
      ({ q with active := mapDelete q.active id, timers := q.timers.erase (id, d) }, none)
    | e :: rest =>
      ({ q with active := mapSet (mapDelete q.active id) e.id e.delayMs,
                backlog := rest,
                timers := q.timers.erase (id, d) }, some e)
  else
    ({ q with active := mapDelete q.active id, timers := q.timers.erase (id, d) }, none)

/-- One scheduler step on a single group queue.  Enqueued ids are issued by
the shared router counter, hence fresh: they occur neither among the active
ids nor in the backlog. -/
inductive Step : RequestQueue → RequestQueue → Prop where
  | enq {q : RequestQueue} (id : Nat) (delayMs : Option Nat) (priority : Option Int)
      (hfresh : id ∉ keysOf q.active ∧ id ∉ q.backlog.map (fun e => e.id)) :
      Step q (q.enqueue id delayMs priority).1
  | fin {q : RequestQueue} (id : Nat) : Step q (q.finish id)
  | timer {q : RequestQueue} (id d : Nat) (ht : (id, d) ∈ q.timers) :
      Step q (q.fireTimer id d).1

/-- The states a group queue can reach from its construction. -/
inductive Reachable : RequestQueue → Prop where
  | init (name : String) (maxConcurrent : Option Nat) :
      Reachable (RequestQueue.make name maxConcurrent)
  | step {q q' : RequestQueue} (h : Reachable q) (hs : Step q q') : Reachable q'

/-! ### Comparator lemmas -/

theorem comparator_self (e : Entry) : comparator e e = 0 := by
  rcases e with ⟨i, d, o, p⟩
  cases p <;> simp [comparator]

theorem comparator_neg (a b : Entry) : comparator a b = - comparator b a := by
  rcases a with ⟨ia, da, oa, pa⟩
  rcases b with ⟨ib, db, ob, pb⟩
  cases pa <;> cases pb <;> simp [comparator]

theorem comparator_trans {a b c : Entry}
    (h1 : comparator a b ≤ 0) (h2 : comparator b c ≤ 0) : comparator a c ≤ 0 := by
  rcases a with ⟨ia, da, oa, pa⟩
  rcases b with ⟨ib, db, ob, pb⟩
  rcases c with ⟨ic, dc, oc, pc⟩
  cases pa <;> cases pb <;> cases pc <;> simp_all [comparator] <;> omega

/-! ### Priority-queue model lemmas -/

theorem mem_pqInsert {l : List Entry} {x y : Entry} :
    y ∈ pqInsert l x ↔ y = x ∨ y ∈ l := by
  induction l with
  | nil => simp [pqInsert]
  | cons z zs ih =>
    by_cases h : comparator x z < 0
    · simp only [pqInsert, if_pos h, List.mem_cons]
    · simp only [pqInsert, if_neg h, List.mem_cons, ih]
      tauto

theorem pqInsert_perm (l : List Entry) (x : Entry) : List.Perm (pqInsert l x) (x :: l) := by
  induction l with
  | nil => simp [pqInsert]
  | cons z zs ih =>
    by_cases h : comparator x z < 0
    · simp [pqInsert, h]
    · simp only [pqInsert, if_neg h]
      exact (ih.cons z).trans (List.Perm.swap x z zs)

theorem pairwise_pqInsert {l : List Entry} {x : Entry}
    (h : l.Pairwise (fun a b => comparator a b ≤ 0)) :
    (pqInsert l x).Pairwise (fun a b => comparator a b ≤ 0) := by
  induction l with
  | nil => simp [pqInsert]
  | cons z zs ih =>
    rcases List.pairwise_cons.mp h with ⟨hz, hzs⟩
    by_cases hc : comparator x z < 0
    · simp only [pqInsert, if_pos hc]
      refine List.pairwise_cons.mpr ⟨?_, h⟩
      intro y hy
      rcases List.mem_cons.mp hy with rfl | hy
      · exact le_of_lt hc
      · exact comparator_trans (le_of_lt hc) (hz y hy)
    · simp only [pqInsert, if_neg hc]
      refine List.pairwise_cons.mpr ⟨?_, ih hzs⟩
      intro y hy
      rcases mem_pqInsert.mp hy with rfl | hy
      · rw [comparator_neg z y]
        omega
      · exact hz y hy

/-! ### Association-list map lemmas -/

theorem keysOf_nil : keysOf [] = [] := rfl

theorem keysOf_cons (p : Nat × Nat) (rest : List (Nat × Nat)) :
    keysOf (p :: rest) = p.1 :: keysOf rest := rfl

theorem mem_keysOf {m : List (Nat × Nat)} {k : Nat} :
    k ∈ keysOf m ↔ ∃ p ∈ m, p.1 = k := by
  simp [keysOf]

theorem mapGet_eq_none {m : List (Nat × Nat)} {k : Nat} :
    mapGet m k = none ↔ ∀ p ∈ m, p.1 ≠ k := by
  induction m with
  | nil => simp [mapGet]
  | cons p rest ih => by_cases h : p.1 = k <;> simp [mapGet, h, ih]

theorem mapGet_some_mem {m : List (Nat × Nat)} {k v : Nat}
    (h : mapGet m k = some v) : k ∈ keysOf m := by
  induction m with
  | nil => simp [mapGet] at h
  | cons p rest ih =>
    rw [keysOf_cons]
    by_cases hp : p.1 = k
    · exact List.mem_cons.mpr (Or.inl hp.symm)
    · simp only [mapGet, if_neg hp] at h
      exact List.mem_cons_of_mem _ (ih h)

theorem mapGet_of_not_mem {m : List (Nat × Nat)} {k : Nat}
    (h : k ∉ keysOf m) : mapGet m k = none := by
  rw [mapGet_eq_none]
  intro p hp hpk
  exact h (mem_keysOf.mpr ⟨p, hp, hpk⟩)

theorem mapDelete_eq_self {m : List (Nat × Nat)} {k : Nat}
    (h : ∀ p ∈ m, p.1 ≠ k) : mapDelete m k = m := by
  induction m with
  | nil => rfl
  | cons p rest ih =>
    have hp : p.1 ≠ k := h p (List.mem_cons_self p rest)
    simp only [mapDelete, if_neg hp]
    rw [ih (fun q hq => h q (List.mem_cons_of_mem p hq))]

theorem mem_mapDelete {m : List (Nat × Nat)} {k : Nat} {p : Nat × Nat}
    (h : p ∈ mapDelete m k) : p ∈ m ∧ p.1 ≠ k := by
  induction m with
  | nil => simp [mapDelete] at h
  | cons q rest ih =>
    by_cases hq : q.1 = k
    · simp only [mapDelete, if_pos hq] at h
      exact ⟨List.mem_cons_of_mem _ (ih h).1, (ih h).2⟩
    · simp only [mapDelete, if_neg hq, List.mem_cons] at h
      rcases h with rfl | h
      · exact ⟨List.mem_cons_self _ _, hq⟩
      · exact ⟨List.mem_cons_of_mem _ (ih h).1, (ih h).2⟩

theorem mapGet_mapDelete_self (m : List (Nat × Nat)) (k : Nat) :
    mapGet (mapDelete m k) k = none := by
  rw [mapGet_eq_none]
  intro p hp
  exact (mem_mapDelete hp).2

theorem length_mapDelete_le (m : List (Nat × Nat)) (k : Nat) :
    (mapDelete m k).length ≤ m.length := by
  induction m with
  | nil => simp [mapDelete]
  | cons p rest ih =>
    by_cases hp : p.1 = k
    · simp only [mapDelete, if_pos hp]
      exact le_trans ih (Nat.le_succ _)
    · simp only [mapDelete, if_neg hp, List.length_cons]
      omega

theorem length_mapDelete_lt {m : List (Nat × Nat)} {k v : Nat}
    (h : mapGet m k = some v) : (mapDelete m k).length < m.length := by
  induction m with
  | nil => simp [mapGet] at h
  | cons p rest ih =>
    by_cases hp : p.1 = k
    · simp only [mapDelete, if_pos hp, List.length_cons]
      exact Nat.lt_succ_of_le (length_mapDelete_le rest k)
    · simp only [mapGet, if_neg hp] at h
      simp only [mapDelete, if_neg hp, List.length_cons]
      exact Nat.succ_lt_succ (ih h)

theorem mapDelete_sublist (m : List (Nat × Nat)) (k : Nat) :
    List.Sublist (mapDelete m k) m := by
  induction m with
  | nil => simp [mapDelete]
  | cons p rest ih =>
    by_cases hp : p.1 = k
    · simp only [mapDelete, if_pos hp]
      exact ih.cons p
    · simp only [mapDelete, if_neg hp]
      exact ih.cons₂ p

theorem length_mapDelete_nodup {m : List (Nat × Nat)} {k v : Nat}
    (hnd : (keysOf m).Nodup) (h : mapGet m k = some v) :
    (mapDelete m k).length + 1 = m.length := by
  induction m with
  | nil => simp [mapGet] at h
  | cons p rest ih =>
    rw [keysOf_cons, List.nodup_cons] at hnd
    by_cases hp : p.1 = k
    · simp only [mapDelete, if_pos hp, List.length_cons]
      have hrest : ∀ q ∈ rest, q.1 ≠ k := by
        intro q hq hqk
        exact hnd.1 (hp ▸ hqk ▸ mem_keysOf.mpr ⟨q, hq, rfl⟩)
      rw [mapDelete_eq_self hrest]
    · simp only [mapGet, if_neg hp] at h
      simp only [mapDelete, if_neg hp, List.length_cons]
      rw [ih hnd.2 h]

theorem mapSet_not_mem {m : List (Nat × Nat)} {k v : Nat}
    (h : ∀ p ∈ m, p.1 ≠ k) : mapSet m k v = m ++ [(k, v)] := by
  induction m with
  | nil => rfl
  | cons p rest ih =>
    have hp : p.1 ≠ k := h p (List.mem_cons_self p rest)
    simp only [mapSet, if_neg hp, List.cons_append]
    rw [ih (fun q hq => h q (List.mem_cons_of_mem p hq))]

theorem keysOf_append (m1 m2 : List (Nat × Nat)) :
    keysOf (m1 ++ m2) = keysOf m1 ++ keysOf m2 := by
  simp [keysOf]

theorem length_mapSet_not_mem {m : List (Nat × Nat)} {k v : Nat}
    (h : ∀ p ∈ m, p.1 ≠ k) : (mapSet m k v).length = m.length + 1 := by
  rw [mapSet_not_mem h]
  simp

theorem mapGet_mapSet_self (m : List (Nat × Nat)) (k v : Nat) :
    mapGet (mapSet m k v) k = some v := by
  induction m with
  | nil => simp [mapSet, mapGet]
  | cons p rest ih =>
    by_cases hp : p.1 = k
    · simp [mapSet, if_pos hp, mapGet]
    · simp only [mapSet, if_neg hp, mapGet, ih]

theorem mapGet_mapSet_ne {m : List (Nat × Nat)} {k v k' : Nat}
    (h : k' ≠ k) : mapGet (mapSet m k v) k' = mapGet m k' := by
  have hk : k ≠ k' := fun hh => h hh.symm
  induction m with
  | nil => simp [mapSet, mapGet, hk]
  | cons p rest ih =>
    by_cases hp : p.1 = k
    · have hpk : p.1 ≠ k' := fun hh => h (hh.symm.trans hp)
      simp only [mapSet, if_pos hp, mapGet, if_neg hpk]
      rw [if_neg hk]
    · by_cases hpk : p.1 = k'
      · simp only [mapSet, if_neg hp, mapGet, if_pos hpk]
      · simp only [mapSet, if_neg hp, mapGet, if_neg hpk, ih]

theorem length_mapDelete_ge {m : List (Nat × Nat)} (k : Nat)
    (hnd : (keysOf m).Nodup) : m.length - 1 ≤ (mapDelete m k).length := by
  induction m with
  | nil => simp [mapDelete]
  | cons p rest ih =>
    rw [keysOf_cons, List.nodup_cons] at hnd
    by_cases hp : p.1 = k
    · have hrest : ∀ q ∈ rest, q.1 ≠ k := by
        intro q hq hqk
        exact hnd.1 (hp ▸ hqk ▸ mem_keysOf.mpr ⟨q, hq, rfl⟩)
      simp only [mapDelete, if_pos hp, List.length_cons]
      rw [mapDelete_eq_self hrest]
      omega
    · have := ih hnd.2
      simp only [mapDelete, if_neg hp, List.length_cons]
      omega

theorem keysOf_mapDelete_sublist (m : List (Nat × Nat)) (k : Nat) :
    List.Sublist (keysOf (mapDelete m k)) (keysOf m) :=
  (mapDelete_sublist m k).map _

/-! ### Reachable-state invariant -/

/-- The inductive invariant of a group queue: the ceiling is respected, a
non-empty backlog means the active map is full, ids are not duplicated
between `active` and `backlog`, and the backlog is in comparator order. -/
structure QInv (q : RequestQueue) : Prop where
  size_le : q.active.length ≤ q.maxConcurrent
  full_of_backlog : q.backlog ≠ [] → q.active.length = q.maxConcurrent
  nodup_active : (keysOf q.active).Nodup
  nodup_backlog : (q.backlog.map (fun e => e.id)).Nodup
  disj : ∀ e ∈ q.backlog, e.id ∉ keysOf q.active
  sorted : q.backlog.Pairwise (fun a b => comparator a b ≤ 0)

theorem reachable_inv {q : RequestQueue} (h : Reachable q) : QInv q := by
  induction h with
  | init name mc =>
    refine ⟨Nat.zero_le _, ?_, List.nodup_nil, List.nodup_nil, ?_, List.Pairwise.nil⟩
    · intro hbb
      exact absurd rfl hbb
    · intro e he
      exact absurd he (List.not_mem_nil e)
  | @step q q' hr hs ih =>
    cases hs with
    | enq id delayMs priority hfresh =>
      by_cases hc : q.active.length ≥ q.maxConcurrent
      · have hq : (q.enqueue id delayMs priority).1 =
            { q with backlog :=
                pqInsert q.backlog (Entry.mk id (delayMs.getD 300) q.backlog.length priority) } := by
          simp [RequestQueue.enqueue, hc]
        rw [hq]
        refine ⟨ih.size_le, ?_, ih.nodup_active, ?_, ?_, pairwise_pqInsert ih.sorted⟩
        · intro _
          exact le_antisymm ih.size_le hc
        · have hperm :
              List.Perm
                (List.map (fun e => e.id)
                  (pqInsert q.backlog (Entry.mk id (delayMs.getD 300) q.backlog.length priority)))
                (id :: q.backlog.map (fun e => e.id)) :=
            (pqInsert_perm q.backlog _).map _
          refine hperm.nodup_iff.mpr (List.nodup_cons.mpr ⟨hfresh.2, ih.nodup_backlog⟩)
        · intro e he
          rcases mem_pqInsert.mp he with rfl | he
          · exact hfresh.1
          · exact ih.disj e he
      · have hq : (q.enqueue id delayMs priority).1 =
            { q with active := mapSet q.active id (delayMs.getD 300) } := by
          simp [RequestQueue.enqueue, hc]
        rw [hq]
        have hnotin : ∀ p ∈ q.active, p.1 ≠ id := by
          intro p hp hpk
          exact hfresh.1 (mem_keysOf.mpr ⟨p, hp, hpk⟩)
        refine ⟨?_, ?_, ?_, ih.nodup_backlog, ?_, ih.sorted⟩
        · show (mapSet q.active id (delayMs.getD 300)).length ≤ q.maxConcurrent
          rw [length_mapSet_not_mem hnotin]
          omega
        · intro hb
          exact absurd (ih.full_of_backlog hb) (by omega)
        · rw [mapSet_not_mem hnotin, keysOf_append, keysOf_cons, keysOf_nil]
          refine List.Nodup.append ih.nodup_active (List.nodup_singleton id) ?_
          intro a ha hid
          have haid : a = id := List.mem_singleton.mp hid
          exact hfresh.1 (haid ▸ ha)
        · intro e he
          rw [mapSet_not_mem hnotin, keysOf_append, keysOf_cons, keysOf_nil]
          intro hmem
          rcases List.mem_append.mp hmem with hmem | hmem
          · exact ih.disj e he hmem
          · have heid : e.id = id := List.mem_singleton.mp hmem
            exact hfresh.2 (heid ▸ List.mem_map_of_mem (fun e => e.id) he)
    | fin id =>
      exact ⟨ih.size_le, ih.full_of_backlog, ih.nodup_active, ih.nodup_backlog, ih.disj, ih.sorted⟩
    | timer id d ht =>
      by_cases hlt : (mapDelete q.active id).length < q.maxConcurrent
      · cases hb : q.backlog with
        | nil =>
          have hq : (q.fireTimer id d).1 =
              { q with active := mapDelete q.active id, timers := q.timers.erase (id, d) } := by
            simp [RequestQueue.fireTimer, hlt, hb]
          rw [hq]
          refine ⟨le_trans (length_mapDelete_le _ _) ih.size_le, ?_,
            List.Nodup.sublist (keysOf_mapDelete_sublist _ _) ih.nodup_active,
            ih.nodup_backlog, ?_, ih.sorted⟩
          · intro hbb
            exact absurd hb hbb
          · intro e he hmem
            rcases mem_keysOf.mp hmem with ⟨p, hp, hpk⟩
            exact ih.disj e he (mem_keysOf.mpr ⟨p, (mem_mapDelete hp).1, hpk⟩)
        | cons e rest =>
          have hq : (q.fireTimer id d).1 =
              { q with active := mapSet (mapDelete q.active id) e.id e.delayMs,
                       backlog := rest, timers := q.timers.erase (id, d) } := by
            simp [RequestQueue.fireTimer, hlt, hb]
          rw [hq]
          have hdisj0 : e.id ∉ keysOf q.active :=
            ih.disj e (hb ▸ List.mem_cons_self e rest)
          have hnot : ∀ p ∈ mapDelete q.active id, p.1 ≠ e.id := by
            intro p hp hpk
            exact hdisj0 (mem_keysOf.mpr ⟨p, (mem_mapDelete hp).1, hpk⟩)
          have hlen : (mapSet (mapDelete q.active id) e.id e.delayMs).length
              = (mapDelete q.active id).length + 1 := length_mapSet_not_mem hnot
          have hkeys : keysOf (mapSet (mapDelete q.active id) e.id e.delayMs)
              = keysOf (mapDelete q.active id) ++ [e.id] := by
            rw [mapSet_not_mem hnot, keysOf_append, keysOf_cons, keysOf_nil]
          have hndA : (keysOf (mapDelete q.active id)).Nodup :=
            List.Nodup.sublist (keysOf_mapDelete_sublist _ _) ih.nodup_active
          have hndB := ih.nodup_backlog
          rw [hb, List.map_cons, List.nodup_cons] at hndB
          have hsorted := ih.sorted
          rw [hb, List.pairwise_cons] at hsorted
          refine ⟨?_, ?_, ?_, hndB.2, ?_, hsorted.2⟩
          · show (mapSet (mapDelete q.active id) e.id e.delayMs).length ≤ q.maxConcurrent
            rw [hlen]
            omega
          · intro hrest
            have hfull : q.active.length = q.maxConcurrent :=
              ih.full_of_backlog (by rw [hb]; exact List.cons_ne_nil e rest)
            have hge : q.active.length - 1 ≤ (mapDelete q.active id).length :=
              length_mapDelete_ge id ih.nodup_active
            show (mapSet (mapDelete q.active id) e.id e.delayMs).length = q.maxConcurrent
            rw [hlen]
            omega
          · rw [hkeys]
            refine List.Nodup.append hndA (List.nodup_singleton _) ?_
            intro a ha hmem
            have haeq := List.mem_singleton.mp hmem
            subst haeq
            rcases mem_keysOf.mp ha with ⟨p, hp, hpk⟩
            exact hdisj0 (mem_keysOf.mpr ⟨p, (mem_mapDelete hp).1, hpk⟩)
          · intro x hx
            rw [hkeys]
            intro hmem
            rcases List.mem_append.mp hmem with hmem | hmem
            · rcases mem_keysOf.mp hmem with ⟨p, hp, hpk⟩
              exact ih.disj x (hb ▸ List.mem_cons_of_mem e hx)
                (mem_keysOf.mpr ⟨p, (mem_mapDelete hp).1, hpk⟩)
            · exact hndB.1 (List.mem_singleton.mp hmem ▸ List.mem_map_of_mem (fun e => e.id) hx)
      · have hq : (q.fireTimer id d).1 =
            { q with active := mapDelete q.active id, timers := q.timers.erase (id, d) } := by
          simp [RequestQueue.fireTimer, hlt]
        rw [hq]
        have hle := le_trans (length_mapDelete_le q.active id) ih.size_le
        refine ⟨hle, ?_,
          List.Nodup.sublist (keysOf_mapDelete_sublist _ _) ih.nodup_active,
          ih.nodup_backlog, ?_, ih.sorted⟩
        · intro _
          show (mapDelete q.active id).length = q.maxConcurrent
          omega
        · intro e he hmem
          rcases mem_keysOf.mp hmem with ⟨p, hp, hpk⟩
          exact ih.disj e he (mem_keysOf.mpr ⟨p, (mem_mapDelete hp).1, hpk⟩)

/-! ### The router: `setupQueue` interceptors and ejector -/

/-- The per-request configuration fields consumed by the interceptors in
`setupQueue`.  `host` stands for the externally computed
`new URL(config.url ?? 'UNKNOWN', config.baseURL).host` (URL parsing is a
platform API, not code of this repository). -/
structure ReqConfig where
  host : String
  queueGroup : Option String
  queuePriority : Option Int
  queueDelayMs : Option Nat
deriving DecidableEq, Repr

/-- The `QueueOptions` fields that reach the queue (the `onRequest` hook is
applied before these are read; `debug` only logs). -/
structure QueueOptions where
  maxConcurrent : Option Nat
  delayMs : Option Nat
deriving DecidableEq, Repr

/-- The group key computed by the request interceptor and the success
response interceptor: `config.queueGroup || url.host` (JavaScript `||`
falls through on the empty string). -/
def requestGroup (c : ReqConfig) : String :=
  match c.queueGroup with
  | some g => if g = "" then c.host else g
  | none => c.host

/-- The group key used by the FAILURE response interceptor:
`err` handler computes only `url.host` and never reads `queueGroup`. -/
def failureGroup (c : ReqConfig) : String :=
  c.host

/-- `Map.prototype.get` on the string-keyed `_queues` map. -/
def assocGet (m : List (String × RequestQueue)) (k : String) : Option RequestQueue :=
  match m with
  | [] => none
  | p :: rest => if p.1 = k then some p.2 else assocGet rest k

/-- `Map.prototype.set` on the `_queues` map. -/
def assocSet (m : List (String × RequestQueue)) (k : String) (v : RequestQueue) :
    List (String × RequestQueue) :=
  match m with
  | [] => [(k, v)]
  | p :: rest => if p.1 = k then (k, v) :: rest else p :: assocSet rest k v

/-- The state installed on the axios instance by `setupQueue`:
`instance._queues` and `instance._counter`. -/
structure Router where
  queues : List (String × RequestQueue)
  counter : Nat
deriving DecidableEq, Repr

/-- `setupQueue` initialisation: `_queues = new Map()`, `_counter = 0`. -/
def setupRouter : Router :=
  { queues := [], counter := 0 }

/-- The request interceptor of `setupQueue`: resolve the group, lazily
create its `RequestQueue` (with `reqOptions?.maxConcurrent`), allocate
`id = instance._counter++`, and enqueue with
`config.queueDelayMs ?? reqOptions?.delayMs` and `config.queuePriority`.
`reqOptions` is the already-computed `options?.onRequest?.(config) ?? options`. -/
def interceptRequest (r : Router) (c : ReqConfig) (reqOptions : Option QueueOptions) :
    Nat × Router :=
  let group := requestGroup c
  let q :=
    match assocGet r.queues group with
    | some q => q
    | none => RequestQueue.make group (reqOptions.bind (fun o => o.maxConcurrent))
  let id := r.counter
  let q' := (q.enqueue id (c.queueDelayMs.orElse (fun _ => reqOptions.bind (fun o => o.delayMs)))
      c.queuePriority).1
  (id, { queues := assocSet r.queues group q', counter := r.counter + 1 })

/-- The success arm of the response interceptor: look the group up by
`response.config.queueGroup || url.host` and call `finish` when found. -/
def interceptSuccess (r : Router) (c : ReqConfig) (qid : Nat) : Router :=
  let group := requestGroup c
  match assocGet r.queues group with
  | some q => { r with queues := assocSet r.queues group (q.finish qid) }
  | none => r

/-- The failure arm of the response interceptor: look the group up by
`url.host` only and call `finish` when found. -/
def interceptFailure (r : Router) (c : ReqConfig) (qid : Nat) : Router :=
  let group := failureGroup c
  match assocGet r.queues group with
  | some q => { r with queues := assocSet r.queues group (q.finish qid) }
  | none => r

/-- The while loop of the ejector for one queue: dequeue until empty,
invoking each popped `cb`; the result lists the waiters in pop order. -/
def drainLoop (backlog : List Entry) : List Entry :=
  match backlog with
  | [] => []
  | e :: rest => e :: drainLoop rest

/-- The ejector returned by `setupQueue`: for every queue of the router,
pop every waiter and invoke its `cb`.  The second component lists every
resumed waiter in invocation order. -/
def ejectorDrain (r : Router) : Router × List Entry :=
  ({ r with queues := r.queues.map (fun p => (p.1, { p.2 with backlog := [] })) },
   (r.queues.map (fun p => drainLoop p.2.backlog)).flatten)

/-- A sequence of requests through the request interceptor, each with its
own config and resolved options; returns the issued ids in order. -/
def interceptMany (calls : List (ReqConfig × Option QueueOptions)) (r : Router) :
    List Nat × Router :=
  match calls with
  | [] => ([], r)
  | (c, o) :: rest =>
    let idr := interceptRequest r c o
    let tl := interceptMany rest idr.2
    (idr.1 :: tl.1, tl.2)

/-- The timer callback is a no-op on `active` and the backlog when the
fired id is not an active key, in any state satisfying the invariant. -/
theorem fireTimer_unknown {q : RequestQueue} (inv : QInv q) (id d : Nat)
    (h : mapGet q.active id = none) :
    (q.fireTimer id d).1.active = q.active ∧
    (q.fireTimer id d).1.backlog = q.backlog ∧
    (q.fireTimer id d).2 = none := by
  have hall : ∀ p ∈ q.active, p.1 ≠ id := mapGet_eq_none.mp h
  have hdel : mapDelete q.active id = q.active := mapDelete_eq_self hall
  by_cases hlt : (mapDelete q.active id).length < q.maxConcurrent
  · cases hb : q.backlog with
    | nil => simp [RequestQueue.fireTimer, hlt, hb, hdel]
    | cons e rest =>
      exfalso
      rw [hdel] at hlt
      have := inv.full_of_backlog (by rw [hb]; exact List.cons_ne_nil e rest)
      omega
  · simp only [RequestQueue.fireTimer, if_neg hlt]
    exact ⟨hdel, trivial, trivial⟩

/-- The while loop of the ejector returns the backlog in pop order. -/
theorem drainLoop_eq_self (l : List Entry) : drainLoop l = l := by
  induction l with
  | nil => rfl
  | cons e rest ih => rw [drainLoop, ih]

/-- Clearing already-empty backlogs changes nothing. -/
theorem map_clear_eq_self {qs : List (String × RequestQueue)}
    (h : ∀ p ∈ qs, p.2.backlog = ([] : List Entry)) :
    qs.map (fun p => (p.1, { p.2 with backlog := ([] : List Entry) })) = qs := by
  induction qs with
  | nil => rfl
  | cons p rest ih =>
    have hp := h p (List.mem_cons_self p rest)
    have hrest := ih (fun q hq => h q (List.mem_cons_of_mem p hq))
    simp only [List.map_cons, hrest]
    rcases p with ⟨k, qq⟩
    rcases qq with ⟨n, a, b, t, m⟩
    simp only at hp
    subst hp
    rfl

/-- Draining queues whose backlogs are already empty resumes nobody. -/
theorem drain_flatten_nil {qs : List (String × RequestQueue)}
    (h : ∀ p ∈ qs, p.2.backlog = ([] : List Entry)) :
    (qs.map (fun p => drainLoop p.2.backlog)).flatten = [] := by
  induction qs with
  | nil => rfl
  | cons p rest ih =>
    simp only [List.map_cons, List.flatten_cons]
    rw [h p (List.mem_cons_self p rest)]
    exact ih (fun q hq => h q (List.mem_cons_of_mem p hq))

/-- The id returned by the request interceptor is the counter value. -/
theorem interceptRequest_id (r : Router) (c : ReqConfig) (o : Option QueueOptions) :
    (interceptRequest r c o).1 = r.counter := rfl

/-- The request interceptor increments the shared counter by one. -/
theorem interceptRequest_counter (r : Router) (c : ReqConfig) (o : Option QueueOptions) :
    (interceptRequest r c o).2.counter = r.counter + 1 := rfl

/-- The ids issued over any call sequence are the consecutive naturals
starting at the initial counter value. -/
theorem interceptMany_ids (calls : List (ReqConfig × Option QueueOptions)) (r : Router) :
    (interceptMany calls r).1 = List.range' r.counter calls.length := by
  induction calls generalizing r with
  | nil => rfl
  | cons co rest ih =>
    rcases co with ⟨c, o⟩
    show (interceptRequest r c o).1 :: (interceptMany rest (interceptRequest r c o).2).1
        = List.range' r.counter ((c, o) :: rest).length
    rw [ih, interceptRequest_counter, interceptRequest_id, List.length_cons, List.range'_succ]

/-! ### Claim C1 -/

/-- C1: the claim states that a waiter with an absent priority sorts AFTER
any waiter with a present priority.  The comparator in the source does the
opposite: with `a.priority` undefined and `b.priority` defined it returns
`-1`, so the priority-less waiter sorts first.  Concretely, on a queue with
`maxConcurrent = 1` holding waiter 1 (priority 5) and waiter 2 (no
priority), the first released slot admits waiter 2, the one WITHOUT a
priority. -/
theorem comparator_prefers_absent_priority :
    comparator (Entry.mk 2 100 1 none) (Entry.mk 1 100 0 (some 5)) = -1 ∧
    (((((RequestQueue.make "h" (some 1)).enqueue 0 (some 100) none).1.enqueue 1 (some 100)
        (some 5)).1.enqueue 2 (some 100) none).1.backlog
      = [Entry.mk 2 100 1 none, Entry.mk 1 100 0 (some 5)]) ∧
    ((((((RequestQueue.make "h" (some 1)).enqueue 0 (some 100) none).1.enqueue 1 (some 100)
        (some 5)).1.enqueue 2 (some 100) none).1.finish 0).fireTimer 0 100).2
      = some (Entry.mk 2 100 1 none) := by
  decide

/-! ### Claim C2 -/

/-- C2: in every reachable state of a group queue, the number of
admitted-but-not-released ids (the size of `active`) is at most
`maxConcurrent`. -/
theorem active_size_le_maxConcurrent {q : RequestQueue} (hr : Reachable q) :
    q.active.length ≤ q.maxConcurrent :=
  (reachable_inv hr).size_le

theorem active_size_le_maxConcurrent_witness :
    ((RequestQueue.make "w" (some 2)).enqueue 0 (some 100) none).1.active.length ≤
      ((RequestQueue.make "w" (some 2)).enqueue 0 (some 100) none).1.maxConcurrent :=
  active_size_le_maxConcurrent
    (Reachable.step (Reachable.init "w" (some 2)) (Step.enq 0 (some 100) none (by decide)))

/-! ### Claim C4 -/

/-- The C4 scenario: a group with `maxConcurrent = 2`; requests 0 and 1 are
admitted, requests 2, 3, 4 queue with order 0, 1, 2; then 0 and 1 finish
(their timers fire), admitting 2 and 3. -/
def orderScenario7 : RequestQueue :=
  (((((((((RequestQueue.make "w" (some 2)).enqueue 0 (some 10) none).1.enqueue 1 (some 10)
      none).1.enqueue 2 (some 10) none).1.enqueue 3 (some 10)
      none).1.enqueue 4 (some 10) none).1.finish 0).fireTimer 0 10).1.finish 1).fireTimer 1 10
    |>.1

/-- The C4 scenario, one step later: request 5 is enqueued while waiter 4
is still in the backlog. -/
def orderScenario8 : RequestQueue :=
  (orderScenario7.enqueue 5 (some 10) none).1

/-- C4: the claim states order values strictly increase within a group and
are never reused, making priority-less admission follow arrival order.  The
source assigns `order = this.queue.size()`, which shrinks when waiters are
dequeued: in the scenario, waiter 4 still sits in the backlog with order 2,
yet the later-arriving request 5 is assigned order 1, and the next released
slot admits 5 before 4 — violating both the strict increase and the
FIFO-among-equals consequence. -/
theorem order_values_reused :
    orderScenario7.backlog = [Entry.mk 4 10 2 none] ∧
    orderScenario8.backlog = [Entry.mk 5 10 1 none, Entry.mk 4 10 2 none] ∧
    ((orderScenario8.finish 2).fireTimer 2 10).2 = some (Entry.mk 5 10 1 none) := by
  decide

/-! ### Claim C6 -/

/-- The C6 scenario config: a request with an explicit `queueGroup` of
`"g"` whose URL host is `"h"`. -/
def groupedConfig : ReqConfig :=
  { host := "h", queueGroup := some "g", queuePriority := none, queueDelayMs := none }

/-- The router after admitting that request: the queue was created under
key `"g"` and id 0 occupies its slot. -/
def groupedRouter : Router :=
  (interceptRequest setupRouter groupedConfig none).2

/-- C6: the claim states that on failure, `finish` is invoked on the queue
of the admitting group (the `queueGroup` override when present).  The
failure arm of the response interceptor looks the queue up by the URL host
only: for the grouped request it looks under `"h"`, finds no queue, and
never calls `finish`, so the slot in group `"g"` is never released (no
cooldown timer is ever scheduled there).  The success arm, by contrast,
uses the override and schedules the release. -/
theorem failure_path_wrong_group :
    requestGroup groupedConfig = "g" ∧
    failureGroup groupedConfig = "h" ∧
    assocGet groupedRouter.queues "g" = some (RequestQueue.mk "g" [(0, 300)] [] [] 2) ∧
    assocGet groupedRouter.queues "h" = none ∧
    interceptFailure groupedRouter groupedConfig 0 = groupedRouter ∧
    assocGet (interceptSuccess groupedRouter groupedConfig 0).queues "g"
      = some (RequestQueue.mk "g" [(0, 300)] [] [(0, 300)] 2) := by
  decide

/-! ### Claim C10 -/

/-- C10: a queue constructed without `maxConcurrent` gets a ceiling of 2,
and an enqueue without `delayMs` records a cooldown of 300 ms; a request
through the interceptor with no configuration at all gets both defaults. -/
theorem default_maxConcurrent_and_delay :
    (RequestQueue.make "w" none).maxConcurrent = 2 ∧
    ((RequestQueue.make "w" none).enqueue 7 none none).1.active = [(7, 300)] ∧
    assocGet (interceptRequest setupRouter (ReqConfig.mk "h" none none none) none).2.queues "h"
      = some (RequestQueue.mk "h" [(0, 300)] [] [] 2) := by
  decide

/-! ### Claim C3 -/

/-- C3: for an id recorded in `active`, `finish(id)` mutates nothing except
scheduling the callback after exactly the cooldown recorded for that id at
admission time (not the group default); the callback removes the id — a
slot is then necessarily free — and, when the backlog is non-empty, admits
exactly the head waiter, which is comparator-minimal over the whole
backlog, recording its id with its own `delayMs` and resuming it; with an
empty backlog nobody is admitted.  In either case at most one waiter is
admitted. -/
theorem finish_cooldown_handoff {q : RequestQueue} (hr : Reachable q) (id d : Nat)
    (h : mapGet q.active id = some d) :
    (q.finish id).timers = q.timers ++ [(id, d)] ∧
    (q.finish id).active = q.active ∧
    (q.finish id).backlog = q.backlog ∧
    (mapDelete q.active id).length < q.maxConcurrent ∧
    (q.backlog = [] →
      (q.fireTimer id d).1.active = mapDelete q.active id ∧
      (q.fireTimer id d).1.backlog = [] ∧
      (q.fireTimer id d).2 = none) ∧
    (∀ e rest, q.backlog = e :: rest →
      (∀ x ∈ q.backlog, comparator e x ≤ 0) ∧
      (q.fireTimer id d).1.active = mapSet (mapDelete q.active id) e.id e.delayMs ∧
      mapGet (q.fireTimer id d).1.active id = none ∧
      mapGet (q.fireTimer id d).1.active e.id = some e.delayMs ∧
      (q.fireTimer id d).1.backlog = rest ∧
      (q.fireTimer id d).2 = some e) := by
  have inv := reachable_inv hr
  have hlt : (mapDelete q.active id).length < q.maxConcurrent :=
    lt_of_lt_of_le (length_mapDelete_lt h) inv.size_le
  have htim : (q.finish id).timers = q.timers ++ [(id, d)] := by
    simp [RequestQueue.finish, h]
  refine ⟨htim, rfl, rfl, hlt, ?_, ?_⟩
  · intro hb
    refine ⟨?_, ?_, ?_⟩ <;> simp [RequestQueue.fireTimer, hlt, hb]
  · intro e rest hb
    have hfa : (q.fireTimer id d).1.active = mapSet (mapDelete q.active id) e.id e.delayMs := by
      simp [RequestQueue.fireTimer, hlt, hb]
    have hfb : (q.fireTimer id d).1.backlog = rest := by
      simp [RequestQueue.fireTimer, hlt, hb]
    have hfr : (q.fireTimer id d).2 = some e := by
      simp [RequestQueue.fireTimer, hlt, hb]
    have hmin : ∀ x ∈ q.backlog, comparator e x ≤ 0 := by
      intro x hx
      rw [hb] at hx
      rcases List.mem_cons.mp hx with rfl | hx
      · exact le_of_eq (comparator_self x)
      · have hs := inv.sorted
        rw [hb, List.pairwise_cons] at hs
        exact hs.1 x hx
    have hdisj0 : e.id ∉ keysOf q.active := inv.disj e (hb ▸ List.mem_cons_self e rest)
    have hidmem : id ∈ keysOf q.active := mapGet_some_mem h
    have hne : id ≠ e.id := fun hh => hdisj0 (hh ▸ hidmem)
    refine ⟨hmin, hfa, ?_, ?_, hfb, hfr⟩
    · rw [hfa, mapGet_mapSet_ne hne]
      exact mapGet_mapDelete_self _ _
    · rw [hfa]
      exact mapGet_mapSet_self _ _ _

theorem finish_cooldown_handoff_witness :
    ((((RequestQueue.make "w" (some 1)).enqueue 0 (some 100) none).1.finish 0).timers
      = [(0, 100)]) ∧
    ((((RequestQueue.make "w" (some 1)).enqueue 0 (some 100) none).1.fireTimer 0 100).2
      = none) := by
  have h := finish_cooldown_handoff
    (Reachable.step (Reachable.init "w" (some 1)) (Step.enq 0 (some 100) none (by decide)))
    0 100 (by decide)
  exact ⟨h.1.trans (by decide), (h.2.2.2.2.1 (by decide)).2.2⟩

/-! ### Claim C5 -/

/-- C5: `enqueue(id, delayMs, priority)` with a free slot records
`id → delayMs` in `active`, adds nothing to the backlog and resolves the
caller synchronously (result flag true); with no free slot it inserts one
waiter carrying `id`, `delayMs`, `priority` and the order value
`backlog.length` into the backlog, leaves `active` unchanged and leaves
the caller suspended (result flag false). -/
theorem enqueue_admit_or_backlog (q : RequestQueue) (id : Nat) (delayMs : Option Nat)
    (priority : Option Int) :
    (q.active.length < q.maxConcurrent →
      (q.enqueue id delayMs priority).1.active = mapSet q.active id (delayMs.getD 300) ∧
      mapGet (q.enqueue id delayMs priority).1.active id = some (delayMs.getD 300) ∧
      (q.enqueue id delayMs priority).1.backlog = q.backlog ∧
      (q.enqueue id delayMs priority).2 = true) ∧
    (q.active.length ≥ q.maxConcurrent →
      (q.enqueue id delayMs priority).1.active = q.active ∧
      List.Perm (q.enqueue id delayMs priority).1.backlog
        (Entry.mk id (delayMs.getD 300) q.backlog.length priority :: q.backlog) ∧
      Entry.mk id (delayMs.getD 300) q.backlog.length priority
        ∈ (q.enqueue id delayMs priority).1.backlog ∧
      (q.enqueue id delayMs priority).2 = false) := by
  constructor
  · intro h
    have hc : ¬ q.active.length ≥ q.maxConcurrent := by omega
    have he : q.enqueue id delayMs priority =
        ({ q with active := mapSet q.active id (delayMs.getD 300) }, true) := by
      simp only [RequestQueue.enqueue, if_neg hc]
    rw [he]
    exact ⟨rfl, mapGet_mapSet_self _ _ _, rfl, rfl⟩
  · intro h
    have he : q.enqueue id delayMs priority =
        ({ q with backlog := pqInsert q.backlog (Entry.mk id (delayMs.getD 300) q.backlog.length priority) }, false) := by
      simp only [RequestQueue.enqueue, if_pos h]
    rw [he]
    exact ⟨rfl, pqInsert_perm _ _, mem_pqInsert.mpr (Or.inl rfl), rfl⟩

theorem enqueue_admit_or_backlog_witness :
    ((RequestQueue.make "w" (some 1)).enqueue 3 (some 50) none).2 = true ∧
    (((RequestQueue.make "w" (some 1)).enqueue 3 (some 50) none).1.enqueue 4 (some 60)
      (some 1)).2 = false :=
  ⟨((enqueue_admit_or_backlog (RequestQueue.make "w" (some 1)) 3 (some 50) none).1
      (by decide)).2.2.2,
   ((enqueue_admit_or_backlog ((RequestQueue.make "w" (some 1)).enqueue 3 (some 50) none).1 4
      (some 60) (some 1)).2 (by decide)).2.2.2⟩

/-! ### Claim C7 -/

/-- C7: `finish(id)` on an id not currently in `active` is tolerated as a
no-op: nothing throws (every operation is total), the cooldown is recorded
as unknown and the callback runs with delay 0, and the callback changes
neither `active` (no recorded cooldown is altered, no id removed) nor the
backlog, admitting nobody. -/
theorem finish_unknown_id_noop {q : RequestQueue} (hr : Reachable q) (id : Nat)
    (h : mapGet q.active id = none) :
    (q.finish id).timers = q.timers ++ [(id, 0)] ∧
    (q.finish id).active = q.active ∧
    (q.finish id).backlog = q.backlog ∧
    (q.fireTimer id 0).1.active = q.active ∧
    (q.fireTimer id 0).1.backlog = q.backlog ∧
    (q.fireTimer id 0).2 = none := by
  have inv := reachable_inv hr
  have hf := fireTimer_unknown inv id 0 h
  exact ⟨by simp [RequestQueue.finish, h], rfl, rfl, hf.1, hf.2.1, hf.2.2⟩

theorem finish_unknown_id_noop_witness :
    ((RequestQueue.make "w" (some 2)).finish 5).timers = [(5, 0)] ∧
    ((RequestQueue.make "w" (some 2)).fireTimer 5 0).1.active = [] ∧
    ((RequestQueue.make "w" (some 2)).fireTimer 5 0).2 = none := by
  have h := finish_unknown_id_noop (Reachable.init "w" (some 2)) 5 (by decide)
  exact ⟨h.1.trans (by decide), h.2.2.2.1.trans (by decide), h.2.2.2.2.2⟩

/-! ### Claim C8 -/

/-- C8: the ejector pops every waiter from every group backlog, invoking
each resume exactly once (the resumed list is precisely the concatenation
of all backlogs, regardless of the state of the active maps, so the
ceiling is not enforced), leaves every queue's `active`, pending `timers`
and `maxConcurrent` untouched, and a second call resumes nothing and does
not crash. -/
theorem ejector_drains_all_backlogs (r : Router) :
    (ejectorDrain r).2 = (r.queues.map (fun p => p.2.backlog)).flatten ∧
    (∀ p ∈ (ejectorDrain r).1.queues, p.2.backlog = []) ∧
    (ejectorDrain r).1.queues.map (fun p => (p.1, p.2.active, p.2.timers, p.2.maxConcurrent))
      = r.queues.map (fun p => (p.1, p.2.active, p.2.timers, p.2.maxConcurrent)) ∧
    (ejectorDrain r).1.counter = r.counter ∧
    (ejectorDrain (ejectorDrain r).1).2 = [] ∧
    (ejectorDrain (ejectorDrain r).1).1 = (ejectorDrain r).1 := by
  have hemp : ∀ p ∈ (ejectorDrain r).1.queues, p.2.backlog = ([] : List Entry) := by
    intro p hp
    rcases List.mem_map.mp hp with ⟨p0, hp0, rfl⟩
    rfl
  refine ⟨?_, hemp, ?_, rfl, drain_flatten_nil hemp, ?_⟩
  · show ((r.queues.map (fun p => drainLoop p.2.backlog)).flatten : List Entry)
        = (r.queues.map (fun p => p.2.backlog)).flatten
    rw [List.map_congr_left (fun p _ => drainLoop_eq_self p.2.backlog)]
  · show ((r.queues.map (fun p => (p.1, { p.2 with backlog := ([] : List Entry) }))).map
        (fun p => (p.1, p.2.active, p.2.timers, p.2.maxConcurrent)))
      = r.queues.map (fun p => (p.1, p.2.active, p.2.timers, p.2.maxConcurrent))
    rw [List.map_map]
    rfl
  · exact congrArg (fun l => Router.mk l (ejectorDrain r).1.counter) (map_clear_eq_self hemp)

/-! ### Claim C9 -/

/-- C9: starting from the freshly initialised router, the ids issued by the
request interceptor over any sequence of admissions — whatever groups,
priorities or delays each call uses — are strictly increasing and never
repeat, because every call draws from the one shared counter. -/
theorem router_ids_strictly_increasing (calls : List (ReqConfig × Option QueueOptions)) :
    (interceptMany calls setupRouter).1.Pairwise (fun a b => a < b) ∧
    (interceptMany calls setupRouter).1.Nodup := by
  have hids := interceptMany_ids calls setupRouter
  constructor
  · rw [hids]
    exact List.pairwise_lt_range' 0 calls.length
  · rw [hids]
    exact (List.pairwise_lt_range' 0 calls.length).imp Nat.ne_of_lt

end AQI
